import Mathlib

/-!
Shallow embedding of the `relational_types` crate (files `src/relations.rs` and
`src/error.rs`), and proofs of the spec's claims about it.

Modelling choices:
* `Idx<T>` is an opaque, totally ordered, copyable handle: modelled as `Nat`.
* `BTreeSet<Idx<T>>` (`IdxSet`) is modelled as `Finset Nat`.
* `BTreeMap<Idx<_>, V>` is modelled as `Finmap`, which is extensional exactly as
  a `BTreeMap` is (two maps with the same contents are equal).
* `CollectionWithId` is external to the crate; `OneToMany::new` consumes it only
  through `get_idx` (identifier resolution, modelled as `String → Option Idx`)
  and through iteration over `(index, record)` pairs where each record is read
  only for its foreign identifier (modelled as `List (Idx × String)`).
  `CollectionWithId` iteration yields pairwise distinct indices; theorems that
  depend on this carry it as a `Nodup` hypothesis.
* Fallible construction returns `Except Error OneToMany`.
-/

/-- The `Idx<T>` of `typed_index_collection`: an opaque totally ordered handle. -/
abbrev Idx := Nat

/-- The set type `IdxSet<T> = BTreeSet<Idx<T>>` of `relations.rs`. -/
abbrev IdxSet := Finset Idx

/-- A `BTreeMap<Idx<T>, β>`, as an extensional finite map. -/
abbrev IdxMap (β : Type) := Finmap (fun _ : Idx => β)

/-- The `Error` enum of `src/error.rs`. -/
inductive Error where
  | IdentifierNotFound (identifier : String) (relation_name : String)
deriving DecidableEq

/-- Ascending-order traversal of a `BTreeSet`, one minimum at a time; the fuel
argument makes the recursion structural. -/
def sortedGo : Nat → IdxSet → List Idx
  | 0, _ => []
  | fuel + 1, s =>
    if h : s.Nonempty then
      s.min' h :: sortedGo fuel (s.erase (s.min' h))
    else []

/-- The iteration order of a `BTreeSet` (and of `BTreeMap` keys): its elements
in ascending order. -/
def sortedList (s : IdxSet) : List Idx :=
  sortedGo s.card s

/-- Reading a bucket out of a map of sets: a missing key reads as `∅`
(`filter_map` skips it, so it contributes no elements). -/
def lookupSet (map : IdxMap IdxSet) (i : Idx) : IdxSet :=
  (map.lookup i).getD ∅

/-- The function `get_corresponding` of `relations.rs`: iterate the input set (a `BTreeSet`
iterates in sorted order), `filter_map` the lookups, flatten the buckets and
collect into a set. -/
def get_corresponding (map : IdxMap IdxSet) (from_ : IdxSet) : IdxSet :=
  ((sortedList from_).filterMap (fun from_idx => map.lookup from_idx)).foldr
    (fun indices acc => indices ∪ acc) ∅

/-- The structure `OneToMany<T, U>` of `relations.rs`. -/
structure OneToMany where
  one_to_many : IdxMap IdxSet
  many_to_one : IdxMap Idx

/-- The derived `Default` of `OneToMany`: both maps empty. -/
def OneToMany.default : OneToMany :=
  { one_to_many := ∅, many_to_one := ∅ }

/-- The method `OneToMany::add_link`: first remove the existing relation for `to` if it is
not related to `from_` (`remove_entry` on `many_to_one`, `and_modify` the old
bucket), then insert the new relation in both maps. -/
def OneToMany.add_link (o : OneToMany) (from_ : Idx) (to_ : Idx) : OneToMany :=
  let removed : OneToMany :=
    match o.many_to_one.lookup to_ with
    | some existing_from_idx =>
      if existing_from_idx ≠ from_ then
        { many_to_one := o.many_to_one.erase to_,
          one_to_many :=
            match o.one_to_many.lookup existing_from_idx with
            | some set => o.one_to_many.insert existing_from_idx (set.erase to_)
            | none => o.one_to_many }
      else o
    | none => o
  { one_to_many :=
      removed.one_to_many.insert from_ (insert to_ (lookupSet removed.one_to_many from_)),
    many_to_one := removed.many_to_one.insert to_ from_ }

/-- The impl of `Relation::get_from` for `OneToMany`: the keys of `one_to_many`. -/
def OneToMany.get_from (o : OneToMany) : IdxSet :=
  o.one_to_many.keys

/-- The impl of `Relation::get_to` for `OneToMany`: the keys of `many_to_one`. -/
def OneToMany.get_to (o : OneToMany) : IdxSet :=
  o.many_to_one.keys

/-- The impl of `Relation::get_corresponding_forward` for `OneToMany`. -/
def OneToMany.get_corresponding_forward (o : OneToMany) (from_ : IdxSet) : IdxSet :=
  get_corresponding o.one_to_many from_

/-- The impl of `Relation::get_corresponding_backward` for `OneToMany`: `filter_map` the
single-owner lookups and collect. -/
def OneToMany.get_corresponding_backward (o : OneToMany) (from_ : IdxSet) : IdxSet :=
  ((sortedList from_).filterMap (fun from_idx => o.many_to_one.lookup from_idx)).toFinset

/-- The loop of `OneToMany::new`, one `many`-record at a time, threading the two
maps being built; the `?` on `get_idx` exits with `IdentifierNotFound`. -/
def OneToMany.newAux (get_idx : String → Option Idx) (rel_name : String) :
    List (Idx × String) → IdxMap IdxSet → IdxMap Idx → Except Error OneToMany
  | [], one_to_many, many_to_one =>
    .ok { one_to_many := one_to_many, many_to_one := many_to_one }
  | (many_idx, one_id) :: rest, one_to_many, many_to_one =>
    match get_idx one_id with
    | none => .error (.IdentifierNotFound one_id rel_name)
    | some one_idx =>
      OneToMany.newAux get_idx rel_name rest
        (one_to_many.insert one_idx (insert many_idx (lookupSet one_to_many one_idx)))
        (many_to_one.insert many_idx one_idx)

/-- The constructor `OneToMany::new(one, many, rel_name)`: `one` enters only through `get_idx`,
`many` through iteration as `(many_idx, foreign identifier)` pairs. -/
def OneToMany.new (one : String → Option Idx) (many : List (Idx × String))
    (rel_name : String) : Except Error OneToMany :=
  OneToMany.newAux one rel_name many ∅ ∅

/-- One iteration of the loop body of `OneToMany::new`, on an already resolved
`(many_idx, one_idx)` pair: insert into `many_to_one`, then
`entry(one_idx).or_insert_with(default).insert(many_idx)`. -/
def rawStep (o : OneToMany) (p : Idx × Idx) : OneToMany :=
  { one_to_many := o.one_to_many.insert p.2 (insert p.1 (lookupSet o.one_to_many p.2)),
    many_to_one := o.many_to_one.insert p.1 p.2 }

/-- Resolve every foreign identifier of the `many` records (meaningful when each
resolution succeeds): the `(many_idx, one_idx)` pairs of `OneToMany::new`. -/
def resolveList (get_idx : String → Option Idx) (many : List (Idx × String)) :
    List (Idx × Idx) :=
  many.map (fun p => (p.1, (get_idx p.2).getD 0))

/-- Apply a finite sequence of `add_link` calls, pairs read as `(from, to)`. -/
def applyLinks (o : OneToMany) (links : List (Idx × Idx)) : OneToMany :=
  links.foldl (fun acc p => acc.add_link p.1 p.2) o

/-- Replay of `OneToMany::new` as `add_link` calls from `default`, pairs read as
`(many_idx, one_idx)`, i.e. `add_link one_idx many_idx` per record. -/
def replayNew (links : List (Idx × Idx)) : OneToMany :=
  links.foldl (fun acc p => acc.add_link p.2 p.1) OneToMany.default

/-- The structure `ManyToMany<T, U>` of `relations.rs`. -/
structure ManyToMany where
  forward : IdxMap IdxSet
  backward : IdxMap IdxSet

/-- One step of the transpose fold of `ManyToMany::from_forward`:
`backward.entry(to_idx).or_insert_with(default).insert(from_idx)`. -/
def insertEdge (backward : IdxMap IdxSet) (edge : Idx × Idx) : IdxMap IdxSet :=
  backward.insert edge.2 (insert edge.1 (lookupSet backward edge.2))

/-- The `(from_idx, to_idx)` pairs enumerated by `ManyToMany::from_forward`,
in `BTreeMap`/`BTreeSet` iteration order (sorted). -/
def mapEdges (forward : IdxMap IdxSet) : List (Idx × Idx) :=
  (sortedList forward.keys).flatMap
    (fun from_idx =>
      (sortedList (lookupSet forward from_idx)).map (fun to_idx => (from_idx, to_idx)))

/-- The constructor `ManyToMany::from_forward`: keep the forward map, build the backward map by
folding every edge through the transpose insertion. -/
def ManyToMany.from_forward (forward : IdxMap IdxSet) : ManyToMany :=
  { forward := forward, backward := (mapEdges forward).foldl insertEdge ∅ }

/-- The `Relation` trait of `relations.rs`, as a record of its four methods;
`OneToMany` and `ManyToMany` each coerce to it below. -/
structure RelationOps where
  get_from : IdxSet
  get_to : IdxSet
  get_corresponding_forward : IdxSet → IdxSet
  get_corresponding_backward : IdxSet → IdxSet

/-- The `Relation` impl of `OneToMany`, packaged. -/
def OneToMany.toRelation (o : OneToMany) : RelationOps :=
  { get_from := o.get_from, get_to := o.get_to,
    get_corresponding_forward := o.get_corresponding_forward,
    get_corresponding_backward := o.get_corresponding_backward }

/-- The impl of `Relation::get_from` for `ManyToMany`: the keys of `forward`. -/
def ManyToMany.get_from (m : ManyToMany) : IdxSet :=
  m.forward.keys

/-- The impl of `Relation::get_to` for `ManyToMany`: the keys of `backward`. -/
def ManyToMany.get_to (m : ManyToMany) : IdxSet :=
  m.backward.keys

/-- The impl of `Relation::get_corresponding_forward` for `ManyToMany`. -/
def ManyToMany.get_corresponding_forward (m : ManyToMany) (from_ : IdxSet) : IdxSet :=
  get_corresponding m.forward from_

/-- The impl of `Relation::get_corresponding_backward` for `ManyToMany`. -/
def ManyToMany.get_corresponding_backward (m : ManyToMany) (from_ : IdxSet) : IdxSet :=
  get_corresponding m.backward from_

/-- The `Relation` impl of `ManyToMany`, packaged. -/
def ManyToMany.toRelation (m : ManyToMany) : RelationOps :=
  { get_from := m.get_from, get_to := m.get_to,
    get_corresponding_forward := m.get_corresponding_forward,
    get_corresponding_backward := m.get_corresponding_backward }

/-- The `collect()` of an iterator of key/value pairs into a `BTreeMap`. -/
def collectPairs (l : List (Idx × IdxSet)) : IdxMap IdxSet :=
  l.foldl (fun acc p => acc.insert p.1 p.2) ∅

/-- The forward map each derivation constructor collects: one entry per index of
`keys` (iterated in sorted order), valued by `f`. -/
def relationMapOver (keys : IdxSet) (f : Idx → IdxSet) : IdxMap IdxSet :=
  collectPairs ((sortedList keys).map (fun idx => (idx, f idx)))

/-- The constructor `ManyToMany::from_relations_chain r1 r2`: per source index of `r1`,
forward through `r1` then forward through `r2`. -/
def ManyToMany.from_relations_chain (r1 r2 : RelationOps) : ManyToMany :=
  ManyToMany.from_forward (relationMapOver r1.get_from
    (fun idx => r2.get_corresponding_forward (r1.get_corresponding_forward {idx})))

/-- The constructor `ManyToMany::from_relations_sink r1 r2`: per source index of `r1`,
forward through `r1` then backward through `r2`. -/
def ManyToMany.from_relations_sink (r1 r2 : RelationOps) : ManyToMany :=
  ManyToMany.from_forward (relationMapOver r1.get_from
    (fun idx => r2.get_corresponding_backward (r1.get_corresponding_forward {idx})))

/-- The constructor `ManyToMany::from_relations_source r1 r2`: per target index of `r1`,
backward through `r1` then forward through `r2`. -/
def ManyToMany.from_relations_source (r1 r2 : RelationOps) : ManyToMany :=
  ManyToMany.from_forward (relationMapOver r1.get_to
    (fun idx => r2.get_corresponding_forward (r1.get_corresponding_backward {idx})))

/-- Bidirectional consistency of a `OneToMany` (section 8 of the spec): each
`many_to_one` entry is mirrored in its owner's bucket, and each bucket member is
mirrored in `many_to_one`. -/
def Consistent (o : OneToMany) : Prop :=
  (∀ u t, o.many_to_one.lookup u = some t → u ∈ lookupSet o.one_to_many t) ∧
  (∀ t u, u ∈ lookupSet o.one_to_many t → o.many_to_one.lookup u = some t)

/-- A packaged relation whose forward lookup is the union of its singleton
forward lookups (true of every `Relation` impl in the crate). -/
def FwdUnion (r : RelationOps) : Prop :=
  ∀ S, r.get_corresponding_forward S = S.biUnion (fun s => r.get_corresponding_forward {s})

/-- A packaged relation whose forward lookup of an index outside `get_from` is
empty (true of every `Relation` impl in the crate). -/
def FwdSupported (r : RelationOps) : Prop :=
  ∀ s, s ∉ r.get_from → r.get_corresponding_forward {s} = ∅

/-- A packaged relation whose backward lookup is the union of its singleton
backward lookups (true of every `Relation` impl in the crate). -/
def BwdUnion (r : RelationOps) : Prop :=
  ∀ S, r.get_corresponding_backward S = S.biUnion (fun s => r.get_corresponding_backward {s})

/-! ### Iteration-order lemmas -/

theorem mem_sortedGo : ∀ (fuel : Nat) (s : IdxSet), s.card ≤ fuel →
    ∀ a : Idx, (a ∈ sortedGo fuel s ↔ a ∈ s) := by
  intro fuel
  induction fuel with
  | zero =>
    intro s hs a
    have hempty : s = ∅ := Finset.card_eq_zero.mp (Nat.le_zero.mp hs)
    subst hempty
    simp [sortedGo]
  | succ n ih =>
    intro s hs a
    by_cases h : s.Nonempty
    · have hmem := s.min'_mem h
      have hcard : (s.erase (s.min' h)).card ≤ n := by
        rw [Finset.card_erase_of_mem hmem]
        omega
      simp only [sortedGo, dif_pos h, List.mem_cons, ih _ hcard a, Finset.mem_erase]
      constructor
      · rintro (rfl | ⟨-, ha⟩)
        · exact hmem
        · exact ha
      · intro ha
        by_cases hq : a = s.min' h
        · exact Or.inl hq
        · exact Or.inr ⟨hq, ha⟩
    · rw [Finset.not_nonempty_iff_eq_empty] at h
      subst h
      simp [sortedGo]

theorem nodup_sortedGo : ∀ (fuel : Nat) (s : IdxSet), s.card ≤ fuel →
    (sortedGo fuel s).Nodup := by
  intro fuel
  induction fuel with
  | zero => intro s _; simp [sortedGo]
  | succ n ih =>
    intro s hs
    by_cases h : s.Nonempty
    · have hmem := s.min'_mem h
      have hcard : (s.erase (s.min' h)).card ≤ n := by
        rw [Finset.card_erase_of_mem hmem]
        omega
      simp only [sortedGo, dif_pos h, List.nodup_cons]
      refine ⟨?_, ih _ hcard⟩
      rw [mem_sortedGo _ _ hcard]
      exact Finset.not_mem_erase _ _
    · simp [sortedGo, h]

theorem mem_sortedList (s : IdxSet) (a : Idx) : a ∈ sortedList s ↔ a ∈ s :=
  mem_sortedGo _ _ le_rfl a

theorem nodup_sortedList (s : IdxSet) : (sortedList s).Nodup :=
  nodup_sortedGo _ _ le_rfl

/-! ### Lookup and bucket lemmas -/

theorem lookupSet_empty (i : Idx) : lookupSet ∅ i = ∅ := by
  simp [lookupSet]

theorem lookupSet_insert_self (m : IdxMap IdxSet) (k : Idx) (v : IdxSet) :
    lookupSet (m.insert k v) k = v := by
  simp [lookupSet]

theorem lookupSet_insert_ne (m : IdxMap IdxSet) (k : Idx) (v : IdxSet) {i : Idx}
    (h : i ≠ k) : lookupSet (m.insert k v) i = lookupSet m i := by
  simp [lookupSet, Finmap.lookup_insert_of_ne _ h]

theorem lookupSet_of_not_mem {m : IdxMap IdxSet} {i : Idx} (h : i ∉ m) :
    lookupSet m i = ∅ := by
  simp [lookupSet, Finmap.lookup_eq_none.mpr h]

theorem mem_lookupSet_mem_keys {m : IdxMap IdxSet} {i a : Idx}
    (h : a ∈ lookupSet m i) : i ∈ m.keys := by
  rw [Finmap.mem_keys]
  by_contra hi
  rw [lookupSet_of_not_mem hi] at h
  exact absurd h (Finset.not_mem_empty a)

theorem mem_foldr_union (l : List IdxSet) (a : Idx) :
    a ∈ l.foldr (fun indices acc => indices ∪ acc) ∅ ↔ ∃ s ∈ l, a ∈ s := by
  induction l with
  | nil => simp
  | cons s l ih => simp [ih]

/-- The characterization of the collected result of `get_corresponding`: the
union of the buckets of the input indices, missing keys reading as `∅`. -/
theorem get_corresponding_eq_biUnion (map : IdxMap IdxSet) (from_ : IdxSet) :
    get_corresponding map from_ = from_.biUnion (fun i => lookupSet map i) := by
  ext a
  rw [get_corresponding, mem_foldr_union, Finset.mem_biUnion]
  constructor
  · rintro ⟨s, hs, ha⟩
    rw [List.mem_filterMap] at hs
    obtain ⟨i, hi, hl⟩ := hs
    rw [mem_sortedList] at hi
    exact ⟨i, hi, by simp [lookupSet, hl, ha]⟩
  · rintro ⟨i, hi, ha⟩
    cases hl : map.lookup i with
    | none => rw [lookupSet, hl] at ha; exact absurd ha (Finset.not_mem_empty a)
    | some s =>
      refine ⟨s, ?_, ?_⟩
      · rw [List.mem_filterMap]
        exact ⟨i, (mem_sortedList _ _).mpr hi, hl⟩
      · rw [lookupSet, hl] at ha; exact ha

/-- The characterization of the backward lookup of `OneToMany`: the collected
single owners of the input indices. -/
theorem oneToMany_backward_eq_biUnion (o : OneToMany) (from_ : IdxSet) :
    o.get_corresponding_backward from_ =
      from_.biUnion (fun u => (o.many_to_one.lookup u).toFinset) := by
  ext a
  rw [OneToMany.get_corresponding_backward, List.mem_toFinset, List.mem_filterMap,
    Finset.mem_biUnion]
  constructor
  · rintro ⟨u, hu, hl⟩
    rw [mem_sortedList] at hu
    exact ⟨u, hu, by simp [hl]⟩
  · rintro ⟨u, hu, ha⟩
    rw [Option.mem_toFinset, Option.mem_def] at ha
    exact ⟨u, (mem_sortedList _ _).mpr hu, ha⟩

/-! ### add_link characterizations -/

/-- After `add_link from_ to_`, `many_to_one` maps `to_` to `from_` and is
untouched elsewhere. -/
theorem add_link_lookup_m2o (o : OneToMany) (from_ to_ u : Idx) :
    (o.add_link from_ to_).many_to_one.lookup u =
      if u = to_ then some from_ else o.many_to_one.lookup u := by
  by_cases hu : u = to_
  · subst hu
    simp only [OneToMany.add_link, if_pos rfl]
    exact Finmap.lookup_insert _
  · simp only [OneToMany.add_link, if_neg hu]
    cases hl : o.many_to_one.lookup to_ with
    | none => simp [hl, Finmap.lookup_insert_of_ne _ hu]
    | some ex =>
      by_cases hex : ex ≠ from_
      · simp [hl, hex, Finmap.lookup_insert_of_ne _ hu, Finmap.lookup_erase_ne hu]
      · simp [hl, hex, Finmap.lookup_insert_of_ne _ hu]

/-- After `add_link from_ to_`, the bucket of `from_` gains `to_`, the bucket of
the previous owner of `to_` (when different from `from_`) loses `to_`, and every
other bucket is untouched. -/
theorem add_link_bucket (o : OneToMany) (from_ to_ g : Idx) :
    lookupSet (o.add_link from_ to_).one_to_many g =
      if g = from_ then insert to_ (lookupSet o.one_to_many from_)
      else if o.many_to_one.lookup to_ = some g then (lookupSet o.one_to_many g).erase to_
      else lookupSet o.one_to_many g := by
  cases hl : o.many_to_one.lookup to_ with
  | none =>
    simp only [OneToMany.add_link, hl]
    by_cases hg : g = from_
    · subst hg; simp [lookupSet_insert_self]
    · simp [hg, lookupSet_insert_ne _ _ _ hg]
  | some ex =>
    by_cases hex : ex ≠ from_
    · simp only [OneToMany.add_link, hl, if_pos hex]
      by_cases hg : g = from_
      · subst hg
        rw [if_pos rfl, lookupSet_insert_self]
        cases hb : o.one_to_many.lookup ex with
        | none => rfl
        | some s =>
          rw [lookupSet_insert_ne _ _ _ (fun hcon => hex hcon.symm)]
      · rw [if_neg hg, lookupSet_insert_ne _ _ _ hg]
        by_cases hge : g = ex
        · subst hge
          rw [if_pos rfl]
          cases hb : o.one_to_many.lookup g with
          | none => simp [lookupSet, hb]
          | some s => simp [lookupSet_insert_self, lookupSet, hb]
        · rw [if_neg (fun hcon => hge (Option.some.inj hcon).symm)]
          cases hb : o.one_to_many.lookup ex with
          | none => rfl
          | some s => rw [lookupSet_insert_ne _ _ _ hge]
    · rw [not_not] at hex
      subst hex
      simp only [OneToMany.add_link, hl]
      rw [if_neg (fun hcon : ex ≠ ex => hcon rfl)]
      by_cases hg : g = ex
      · subst hg; simp [lookupSet_insert_self]
      · rw [if_neg hg, lookupSet_insert_ne _ _ _ hg,
          if_neg (fun hcon => hg (Option.some.inj hcon).symm)]

/-- The call `add_link` adds `from_` to the keys of `one_to_many` and removes no key. -/
theorem add_link_mem_keys (o : OneToMany) (from_ to_ g : Idx) :
    g ∈ (o.add_link from_ to_).one_to_many.keys ↔ g = from_ ∨ g ∈ o.one_to_many.keys := by
  cases hl : o.many_to_one.lookup to_ with
  | none =>
    simp only [OneToMany.add_link, hl]
    simp [Finmap.mem_keys, Finmap.mem_insert]
  | some ex =>
    by_cases hex : ex ≠ from_
    · simp only [OneToMany.add_link, hl, if_pos hex]
      cases hb : o.one_to_many.lookup ex with
      | none => simp [Finmap.mem_keys, Finmap.mem_insert]
      | some s =>
        simp only [Finmap.mem_keys, Finmap.mem_insert]
        constructor
        · rintro (rfl | rfl | hg)
          · exact Or.inl rfl
          · exact Or.inr (Finmap.mem_iff.mpr ⟨s, hb⟩)
          · exact Or.inr hg
        · rintro (rfl | hg)
          · exact Or.inl rfl
          · exact Or.inr (Or.inr hg)
    · simp only [OneToMany.add_link, hl, if_neg hex]
      simp [Finmap.mem_keys, Finmap.mem_insert]

/-! ### Consistency -/

theorem consistent_default : Consistent OneToMany.default := by
  constructor
  · intro u t h
    simp [OneToMany.default, Finmap.lookup_empty] at h
  · intro t u h
    rw [OneToMany.default] at h
    rw [lookupSet_empty] at h
    exact absurd h (Finset.not_mem_empty u)

theorem consistent_add_link (o : OneToMany) (hc : Consistent o) (from_ to_ : Idx) :
    Consistent (o.add_link from_ to_) := by
  obtain ⟨h1, h2⟩ := hc
  constructor
  · intro u t hmt
    rw [add_link_lookup_m2o] at hmt
    rw [add_link_bucket]
    by_cases hu : u = to_
    · subst hu
      rw [if_pos rfl] at hmt
      cases hmt
      rw [if_pos rfl]
      exact Finset.mem_insert_self _ _
    · rw [if_neg hu] at hmt
      have hu_bucket := h1 u t hmt
      by_cases ht : t = from_
      · subst ht
        rw [if_pos rfl]
        exact Finset.mem_insert_of_mem hu_bucket
      · rw [if_neg ht]
        by_cases hown : o.many_to_one.lookup to_ = some t
        · rw [if_pos hown]
          exact Finset.mem_erase_of_ne_of_mem hu hu_bucket
        · rw [if_neg hown]
          exact hu_bucket
  · intro t u hmem
    rw [add_link_bucket] at hmem
    rw [add_link_lookup_m2o]
    by_cases ht : t = from_
    · subst ht
      rw [if_pos rfl] at hmem
      rcases Finset.mem_insert.mp hmem with rfl | hmem2
      · rw [if_pos rfl]
      · by_cases hu : u = to_
        · subst hu
          rw [if_pos rfl]
        · rw [if_neg hu]
          exact h2 _ _ hmem2
    · rw [if_neg ht] at hmem
      by_cases hown : o.many_to_one.lookup to_ = some t
      · rw [if_pos hown] at hmem
        obtain ⟨hne, hmem2⟩ := Finset.mem_erase.mp hmem
        rw [if_neg hne]
        exact h2 _ _ hmem2
      · rw [if_neg hown] at hmem
        have hres := h2 _ _ hmem
        by_cases hu : u = to_
        · subst hu
          exact absurd hres hown
        · rw [if_neg hu]
          exact hres

theorem consistent_applyLinks (o : OneToMany) (hc : Consistent o)
    (links : List (Idx × Idx)) : Consistent (applyLinks o links) := by
  induction links generalizing o with
  | nil => exact hc
  | cons p l ih => exact ih (o.add_link p.1 p.2) (consistent_add_link o hc p.1 p.2)

/-! ### The loop of new as a replay of add_link -/

theorem add_link_eq_rawStep (o : OneToMany) (p : Idx × Idx)
    (h : o.many_to_one.lookup p.1 = none) : o.add_link p.2 p.1 = rawStep o p := by
  obtain ⟨mi, oi⟩ := p
  simp only [OneToMany.add_link, rawStep, h]

theorem foldl_rawStep_m2o_not_mem (l : List (Idx × Idx)) (o : OneToMany) (u : Idx)
    (h : u ∉ l.map Prod.fst) :
    (l.foldl rawStep o).many_to_one.lookup u = o.many_to_one.lookup u := by
  induction l generalizing o with
  | nil => rfl
  | cons p l ih =>
    simp only [List.map_cons, List.mem_cons] at h
    push_neg at h
    rw [List.foldl_cons, ih _ h.2]
    exact Finmap.lookup_insert_of_ne _ h.1

theorem foldl_rawStep_m2o_mem (l : List (Idx × Idx)) (o : OneToMany) (u : Idx)
    (h : u ∈ l.map Prod.fst) :
    ((l.foldl rawStep o).many_to_one.lookup u).isSome := by
  induction l generalizing o with
  | nil => simp at h
  | cons p l ih =>
    rw [List.foldl_cons]
    by_cases hm : u ∈ l.map Prod.fst
    · exact ih _ hm
    · simp only [List.map_cons, List.mem_cons] at h
      rcases h with h | h
      · rw [foldl_rawStep_m2o_not_mem _ _ _ hm, h]
        simp [rawStep]
      · exact absurd h hm

theorem foldl_rawStep_eq_addLink (l : List (Idx × Idx)) (o : OneToMany)
    (hnd : (l.map Prod.fst).Nodup)
    (hfresh : ∀ i ∈ l.map Prod.fst, o.many_to_one.lookup i = none) :
    l.foldl rawStep o = l.foldl (fun acc p => acc.add_link p.2 p.1) o := by
  induction l generalizing o with
  | nil => rfl
  | cons p l ih =>
    rw [List.map_cons, List.nodup_cons] at hnd
    rw [List.foldl_cons, List.foldl_cons,
      ← add_link_eq_rawStep o p (hfresh p.1 (by simp))]
    apply ih _ hnd.2
    intro i hi
    rw [add_link_lookup_m2o]
    have hne : i ≠ p.1 := fun hcon => hnd.1 (hcon ▸ hi)
    rw [if_neg hne]
    exact hfresh i (by simp [hi])

theorem newAux_ok_elim (gi : String → Option Idx) (rel : String) :
    ∀ (l : List (Idx × String)) (o2m : IdxMap IdxSet) (m2o : IdxMap Idx) (r : OneToMany),
      OneToMany.newAux gi rel l o2m m2o = .ok r →
      (∀ p ∈ l, (gi p.2).isSome) ∧
        r = (resolveList gi l).foldl rawStep
              { one_to_many := o2m, many_to_one := m2o } := by
  intro l
  induction l with
  | nil =>
    intro o2m m2o r h
    simp only [OneToMany.newAux] at h
    cases h
    exact ⟨by simp, rfl⟩
  | cons p l ih =>
    intro o2m m2o r h
    obtain ⟨mi, oid⟩ := p
    cases hgi : gi oid with
    | none =>
      simp only [OneToMany.newAux, hgi] at h
      exact (Except.noConfusion h)
    | some oi =>
      simp only [OneToMany.newAux, hgi] at h
      obtain ⟨hall, hr⟩ := ih _ _ _ h
      refine ⟨?_, ?_⟩
      · intro q hq
        rcases List.mem_cons.mp hq with rfl | hq2
        · simp [hgi]
        · exact hall q hq2
      · rw [hr]
        simp only [resolveList, List.map_cons, List.foldl_cons, hgi, Option.getD_some]
        rfl

theorem newAux_ok_intro (gi : String → Option Idx) (rel : String) :
    ∀ (l : List (Idx × String)) (o2m : IdxMap IdxSet) (m2o : IdxMap Idx),
      (∀ p ∈ l, (gi p.2).isSome) →
      OneToMany.newAux gi rel l o2m m2o =
        .ok ((resolveList gi l).foldl rawStep
              { one_to_many := o2m, many_to_one := m2o }) := by
  intro l
  induction l with
  | nil => intro o2m m2o _; rfl
  | cons p l ih =>
    intro o2m m2o h
    obtain ⟨mi, oid⟩ := p
    cases hgi : gi oid with
    | none =>
      have hmem := h (mi, oid) (by simp)
      rw [hgi] at hmem
      simp at hmem
    | some oi =>
      simp only [OneToMany.newAux, hgi, resolveList, List.map_cons, List.foldl_cons,
        Option.getD_some]
      exact ih _ _ (fun q hq => h q (List.mem_cons_of_mem _ hq))

theorem newAux_error_first (gi : String → Option Idx) (rel : String) :
    ∀ (l : List (Idx × String)) (o2m : IdxMap IdxSet) (m2o : IdxMap Idx) (e : Error),
      OneToMany.newAux gi rel l o2m m2o = .error e →
      ∃ p, l.find? (fun q => (gi q.2).isNone) = some p ∧
        e = .IdentifierNotFound p.2 rel := by
  intro l
  induction l with
  | nil =>
    intro o2m m2o e h
    simp only [OneToMany.newAux] at h
    exact (Except.noConfusion h)
  | cons p l ih =>
    intro o2m m2o e h
    obtain ⟨mi, oid⟩ := p
    cases hgi : gi oid with
    | none =>
      simp only [OneToMany.newAux, hgi] at h
      refine ⟨(mi, oid), ?_, ?_⟩
      · rw [List.find?_cons_of_pos]
        simp [hgi]
      · cases h
        rfl
    | some oi =>
      simp only [OneToMany.newAux, hgi] at h
      obtain ⟨q, hfind, he⟩ := ih _ _ _ h
      refine ⟨q, ?_, he⟩
      rw [List.find?_cons_of_neg]
      · exact hfind
      · simp [hgi]

/-! ### Collected pair maps -/

theorem foldl_insert_lookup_not_mem (l : List (Idx × IdxSet)) (m : IdxMap IdxSet)
    (i : Idx) (h : i ∉ l.map Prod.fst) :
    (l.foldl (fun acc p => acc.insert p.1 p.2) m).lookup i = m.lookup i := by
  induction l generalizing m with
  | nil => rfl
  | cons p l ih =>
    simp only [List.map_cons, List.mem_cons] at h
    push_neg at h
    rw [List.foldl_cons, ih _ h.2]
    exact Finmap.lookup_insert_of_ne _ h.1

theorem foldl_insert_lookup_mem (l : List (Idx × IdxSet)) (m : IdxMap IdxSet)
    {i : Idx} {v : IdxSet} (hnd : (l.map Prod.fst).Nodup) (hmem : (i, v) ∈ l) :
    (l.foldl (fun acc p => acc.insert p.1 p.2) m).lookup i = some v := by
  induction l generalizing m with
  | nil => exact absurd hmem (List.not_mem_nil _)
  | cons p l ih =>
    rw [List.map_cons, List.nodup_cons] at hnd
    rw [List.foldl_cons]
    rcases List.mem_cons.mp hmem with heq | hmem2
    · have hfst : p.1 = i := by rw [← heq]
      have hsnd : p.2 = v := by rw [← heq]
      rw [foldl_insert_lookup_not_mem _ _ _ (hfst ▸ hnd.1), hfst, hsnd]
      exact Finmap.lookup_insert _
    · exact ih _ hnd.2 hmem2

theorem relationMapOver_lookup (K : IdxSet) (f : Idx → IdxSet) (i : Idx) :
    (relationMapOver K f).lookup i = if i ∈ K then some (f i) else none := by
  unfold relationMapOver collectPairs
  by_cases hi : i ∈ K
  · rw [if_pos hi]
    apply foldl_insert_lookup_mem
    · rw [List.map_map]
      have hcomp : (Prod.fst ∘ fun idx => (idx, f idx)) = id := rfl
      rw [hcomp, List.map_id]
      exact nodup_sortedList K
    · exact List.mem_map.mpr ⟨i, (mem_sortedList _ _).mpr hi, rfl⟩
  · rw [if_neg hi, foldl_insert_lookup_not_mem]
    · exact Finmap.lookup_empty _
    · rw [List.map_map]
      have hcomp : (Prod.fst ∘ fun idx => (idx, f idx)) = id := rfl
      rw [hcomp, List.map_id, mem_sortedList]
      exact hi

/-! ### The transpose fold of from_forward -/

theorem mem_foldl_insertEdge (l : List (Idx × Idx)) (m : IdxMap IdxSet) (a t : Idx) :
    a ∈ lookupSet (l.foldl insertEdge m) t ↔ a ∈ lookupSet m t ∨ (a, t) ∈ l := by
  induction l generalizing m with
  | nil => simp
  | cons e l ih =>
    obtain ⟨ef, et⟩ := e
    rw [List.foldl_cons, ih]
    by_cases ht : t = et
    · subst ht
      rw [insertEdge, lookupSet_insert_self]
      simp only [Finset.mem_insert, List.mem_cons, Prod.mk.injEq]
      tauto
    · rw [insertEdge, lookupSet_insert_ne _ _ _ ht]
      simp only [List.mem_cons, Prod.mk.injEq]
      constructor
      · rintro (ha | hl)
        · exact Or.inl ha
        · exact Or.inr (Or.inr hl)
      · rintro (ha | ⟨-, hcon⟩ | hl)
        · exact Or.inl ha
        · exact absurd hcon ht
        · exact Or.inr hl

theorem mem_mapEdges (m : IdxMap IdxSet) (a b : Idx) :
    (a, b) ∈ mapEdges m ↔ b ∈ lookupSet m a := by
  rw [mapEdges, List.mem_flatMap]
  constructor
  · rintro ⟨i, hi, hmem⟩
    rw [List.mem_map] at hmem
    obtain ⟨t, ht, heq⟩ := hmem
    cases heq
    rw [mem_sortedList] at ht
    exact ht
  · intro hb
    refine ⟨a, ?_, ?_⟩
    · exact (mem_sortedList _ _).mpr (mem_lookupSet_mem_keys hb)
    · exact List.mem_map.mpr ⟨b, (mem_sortedList _ _).mpr hb, rfl⟩

/-- The transpose property of the backward map produced by `from_forward`. -/
theorem from_forward_backward_mem (m : IdxMap IdxSet) (from_idx to_idx : Idx) :
    from_idx ∈ lookupSet (ManyToMany.from_forward m).backward to_idx ↔
      to_idx ∈ lookupSet m from_idx := by
  show from_idx ∈ lookupSet ((mapEdges m).foldl insertEdge ∅) to_idx ↔ _
  rw [mem_foldl_insertEdge, mem_mapEdges]
  simp [lookupSet_empty]

/-! ### Lawfulness of the two Relation impls -/

theorem get_corresponding_singleton (m : IdxMap IdxSet) (i : Idx) :
    get_corresponding m {i} = lookupSet m i := by
  rw [get_corresponding_eq_biUnion, Finset.singleton_biUnion]

theorem fwdUnion_oneToMany (o : OneToMany) : FwdUnion o.toRelation := by
  intro S
  show get_corresponding o.one_to_many S = _
  rw [get_corresponding_eq_biUnion]
  refine Finset.biUnion_congr rfl (fun s _ => ?_)
  exact (get_corresponding_singleton _ _).symm

theorem fwdSupported_oneToMany (o : OneToMany) : FwdSupported o.toRelation := by
  intro s hs
  show get_corresponding o.one_to_many {s} = ∅
  rw [get_corresponding_singleton]
  exact lookupSet_of_not_mem (fun hc => hs (Finmap.mem_keys.mpr hc))

theorem bwdUnion_oneToMany (o : OneToMany) : BwdUnion o.toRelation := by
  intro S
  show o.get_corresponding_backward S = _
  rw [oneToMany_backward_eq_biUnion]
  refine Finset.biUnion_congr rfl (fun u _ => ?_)
  show _ = o.get_corresponding_backward {u}
  rw [oneToMany_backward_eq_biUnion, Finset.singleton_biUnion]

theorem fwdUnion_manyToMany (m : ManyToMany) : FwdUnion m.toRelation := by
  intro S
  show get_corresponding m.forward S = _
  rw [get_corresponding_eq_biUnion]
  refine Finset.biUnion_congr rfl (fun s _ => ?_)
  exact (get_corresponding_singleton _ _).symm

theorem fwdSupported_manyToMany (m : ManyToMany) : FwdSupported m.toRelation := by
  intro s hs
  show get_corresponding m.forward {s} = ∅
  rw [get_corresponding_singleton]
  exact lookupSet_of_not_mem (fun hc => hs (Finmap.mem_keys.mpr hc))

theorem bwdUnion_manyToMany (m : ManyToMany) : BwdUnion m.toRelation := by
  intro S
  show get_corresponding m.backward S = _
  rw [get_corresponding_eq_biUnion]
  refine Finset.biUnion_congr rfl (fun s _ => ?_)
  exact (get_corresponding_singleton _ _).symm

/-! ### Composition cores -/

theorem fwd_biUnion_of_fwdUnion {r : RelationOps} (h : FwdUnion r) (S : IdxSet)
    (g : Idx → IdxSet) :
    r.get_corresponding_forward (S.biUnion g) =
      S.biUnion (fun s => r.get_corresponding_forward (g s)) := by
  rw [h, Finset.biUnion_biUnion]
  refine Finset.biUnion_congr rfl (fun s _ => ?_)
  exact (h (g s)).symm

theorem bwd_biUnion_of_bwdUnion {r : RelationOps} (h : BwdUnion r) (S : IdxSet)
    (g : Idx → IdxSet) :
    r.get_corresponding_backward (S.biUnion g) =
      S.biUnion (fun s => r.get_corresponding_backward (g s)) := by
  rw [h, Finset.biUnion_biUnion]
  refine Finset.biUnion_congr rfl (fun s _ => ?_)
  exact (h (g s)).symm

theorem fwd_empty_of_fwdUnion {r : RelationOps} (h : FwdUnion r) :
    r.get_corresponding_forward ∅ = ∅ := by
  rw [h]
  exact Finset.biUnion_empty

theorem bwd_empty_of_bwdUnion {r : RelationOps} (h : BwdUnion r) :
    r.get_corresponding_backward ∅ = ∅ := by
  rw [h]
  exact Finset.biUnion_empty

theorem chain_fwd_eq (r1 r2 : RelationOps) (h1 : FwdUnion r1) (h1s : FwdSupported r1)
    (h2 : FwdUnion r2) (S : IdxSet) :
    (ManyToMany.from_relations_chain r1 r2).get_corresponding_forward S =
      r2.get_corresponding_forward (r1.get_corresponding_forward S) := by
  have lhs :
      (ManyToMany.from_relations_chain r1 r2).get_corresponding_forward S =
        S.biUnion (fun s =>
          lookupSet (relationMapOver r1.get_from
            (fun idx => r2.get_corresponding_forward (r1.get_corresponding_forward {idx}))) s) :=
    get_corresponding_eq_biUnion _ _
  rw [lhs, h1 S, fwd_biUnion_of_fwdUnion h2]
  refine Finset.biUnion_congr rfl (fun s _ => ?_)
  rw [lookupSet, relationMapOver_lookup]
  by_cases hs : s ∈ r1.get_from
  · rw [if_pos hs, Option.getD_some]
  · rw [if_neg hs, Option.getD_none, h1s s hs, fwd_empty_of_fwdUnion h2]

theorem sink_fwd_eq (r1 r2 : RelationOps) (h1 : FwdUnion r1) (h1s : FwdSupported r1)
    (h2 : BwdUnion r2) (S : IdxSet) :
    (ManyToMany.from_relations_sink r1 r2).get_corresponding_forward S =
      r2.get_corresponding_backward (r1.get_corresponding_forward S) := by
  have lhs :
      (ManyToMany.from_relations_sink r1 r2).get_corresponding_forward S =
        S.biUnion (fun s =>
          lookupSet (relationMapOver r1.get_from
            (fun idx => r2.get_corresponding_backward (r1.get_corresponding_forward {idx}))) s) :=
    get_corresponding_eq_biUnion _ _
  rw [lhs, h1 S, bwd_biUnion_of_bwdUnion h2]
  refine Finset.biUnion_congr rfl (fun s _ => ?_)
  rw [lookupSet, relationMapOver_lookup]
  by_cases hs : s ∈ r1.get_from
  · rw [if_pos hs, Option.getD_some]
  · rw [if_neg hs, Option.getD_none, h1s s hs, bwd_empty_of_bwdUnion h2]

/-! ### Remaining helpers -/

theorem resolveList_map_fst (gi : String → Option Idx) (many : List (Idx × String)) :
    (resolveList gi many).map Prod.fst = many.map Prod.fst := by
  rw [resolveList, List.map_map]
  rfl

theorem consistent_foldl_add_link_swapped (o : OneToMany) (hc : Consistent o)
    (l : List (Idx × Idx)) :
    Consistent (l.foldl (fun acc p => acc.add_link p.2 p.1) o) := by
  induction l generalizing o with
  | nil => exact hc
  | cons p l ih => exact ih _ (consistent_add_link o hc p.2 p.1)

theorem insert_eq_self_of_lookup {β : Type} {m : IdxMap β} {k : Idx} {v : β}
    (h : m.lookup k = some v) : m.insert k v = m := by
  apply Finmap.ext_lookup
  intro x
  by_cases hx : x = k
  · subst hx
    rw [Finmap.lookup_insert, h]
  · rw [Finmap.lookup_insert_of_ne _ hx]

theorem add_link_eq_self {o : OneToMany} {from_ to_ : Idx}
    (h : o.many_to_one.lookup to_ = some from_)
    (hb : to_ ∈ lookupSet o.one_to_many from_) : o.add_link from_ to_ = o := by
  have ho2m_lookup : o.one_to_many.lookup from_ = some (lookupSet o.one_to_many from_) := by
    cases hc : o.one_to_many.lookup from_ with
    | none =>
      rw [lookupSet, hc, Option.getD_none] at hb
      exact absurd hb (Finset.not_mem_empty _)
    | some s => rw [lookupSet, hc, Option.getD_some]
  simp only [OneToMany.add_link, h]
  rw [if_neg (fun hcon : from_ ≠ from_ => hcon rfl)]
  have h1 : o.one_to_many.insert from_ (insert to_ (lookupSet o.one_to_many from_)) =
      o.one_to_many := by
    rw [Finset.insert_eq_self.mpr hb]
    exact insert_eq_self_of_lookup ho2m_lookup
  have h2 : o.many_to_one.insert to_ from_ = o.many_to_one :=
    insert_eq_self_of_lookup h
  rw [h1, h2]

/-! ### The claims -/

/-- C1: every `OneToMany` reachable by a successful `OneToMany::new` (over a
collection whose iteration yields pairwise distinct indices) followed by any
finite sequence of `add_link` calls satisfies bidirectional consistency: a
`many_to_one` entry is mirrored in its owner's `one_to_many` bucket, and
conversely every bucket member points back to that bucket in `many_to_one`. -/
theorem C1_reachable_bidirectional_consistency
    (gi : String → Option Idx) (many : List (Idx × String)) (rel : String)
    (r : OneToMany) (links : List (Idx × Idx))
    (hnd : (many.map Prod.fst).Nodup)
    (h : OneToMany.new gi many rel = .ok r) :
    Consistent (applyLinks r links) := by
  apply consistent_applyLinks
  obtain ⟨hall, hr⟩ := newAux_ok_elim gi rel many ∅ ∅ r h
  rw [hr, foldl_rawStep_eq_addLink]
  · exact consistent_foldl_add_link_swapped _ consistent_default _
  · rw [resolveList_map_fst]
    exact hnd
  · intro i _
    exact Finmap.lookup_empty i

/-- C1 witness: applying the theorem to an empty construction followed by two
concrete re-linking calls. -/
theorem C1_reachable_bidirectional_consistency_witness :
    Consistent (applyLinks OneToMany.default [(0, 1), (2, 1)]) :=
  C1_reachable_bidirectional_consistency (fun _ => none) [] "wit" OneToMany.default
    [(0, 1), (2, 1)] (by simp) rfl

/-- C2: on a bidirectionally consistent `OneToMany`, after `add_link from_ to_`
the map `many_to_one` sends `to_` to `from_`, `to_` is in the bucket of `from_`,
and the bucket of `from_` is the only bucket (over all keys of `one_to_many`)
containing `to_`. -/
theorem C2_add_link_reowns_exactly (o : OneToMany) (from_ to_ : Idx)
    (hc : Consistent o) :
    (o.add_link from_ to_).many_to_one.lookup to_ = some from_ ∧
    to_ ∈ lookupSet (o.add_link from_ to_).one_to_many from_ ∧
    ((o.add_link from_ to_).one_to_many.keys.filter
      (fun g => to_ ∈ lookupSet (o.add_link from_ to_).one_to_many g)) = {from_} := by
  refine ⟨?_, ?_, ?_⟩
  · rw [add_link_lookup_m2o, if_pos rfl]
  · rw [add_link_bucket, if_pos rfl]
    exact Finset.mem_insert_self _ _
  · ext g
    rw [Finset.mem_filter, Finset.mem_singleton]
    constructor
    · rintro ⟨hkey, hmem⟩
      by_contra hg
      rw [add_link_bucket, if_neg hg] at hmem
      by_cases hown : o.many_to_one.lookup to_ = some g
      · rw [if_pos hown] at hmem
        exact absurd rfl (Finset.mem_erase.mp hmem).1
      · rw [if_neg hown] at hmem
        exact hown (hc.2 g to_ hmem)
    · rintro rfl
      refine ⟨(add_link_mem_keys o g to_ g).mpr (Or.inl rfl), ?_⟩
      rw [add_link_bucket, if_pos rfl]
      exact Finset.mem_insert_self _ _

/-- C2 witness: the theorem applied to the empty relation (consistent) and one
concrete link. -/
theorem C2_add_link_reowns_exactly_witness :
    (OneToMany.default.add_link 0 1).many_to_one.lookup 1 = some 0 ∧
    1 ∈ lookupSet (OneToMany.default.add_link 0 1).one_to_many 0 ∧
    ((OneToMany.default.add_link 0 1).one_to_many.keys.filter
      (fun g => 1 ∈ lookupSet (OneToMany.default.add_link 0 1).one_to_many g)) = {0} :=
  C2_add_link_reowns_exactly OneToMany.default 0 1 consistent_default

/-- C3: chaining two relations (the forward lookup of each distributing over
unions and vanishing outside its source set, as both crate impls do) and then
looking forward equals looking forward through the first and then through the
second. -/
theorem C3_chain_forward_composes (r1 r2 : RelationOps)
    (h1 : FwdUnion r1) (h1s : FwdSupported r1) (h2 : FwdUnion r2) (S : IdxSet) :
    (ManyToMany.from_relations_chain r1 r2).get_corresponding_forward S =
      r2.get_corresponding_forward (r1.get_corresponding_forward S) :=
  chain_fwd_eq r1 r2 h1 h1s h2 S

/-- C3 witness: the theorem applied to two concrete `OneToMany` relations. -/
theorem C3_chain_forward_composes_witness :
    (ManyToMany.from_relations_chain
        ((OneToMany.default.add_link 0 3).add_link 0 4).toRelation
        ((OneToMany.default.add_link 3 7).add_link 4 8).toRelation).get_corresponding_forward
        {0} =
      ((OneToMany.default.add_link 3 7).add_link 4 8).toRelation.get_corresponding_forward
        ((((OneToMany.default.add_link 0 3).add_link 0 4).toRelation).get_corresponding_forward
          {0}) :=
  C3_chain_forward_composes _ _ (fwdUnion_oneToMany _) (fwdSupported_oneToMany _)
    (fwdUnion_oneToMany _) {0}

/-- C4: in every `ManyToMany` built by `from_forward`, an index is in the
forward bucket of a source exactly when the source is in the backward bucket of
that index (the backward map is the exact transpose); the chain, sink and
source constructors produce such instances by definition. -/
theorem C4_from_forward_transpose (m : IdxMap IdxSet) (from_idx to_idx : Idx) :
    to_idx ∈ lookupSet (ManyToMany.from_forward m).forward from_idx ↔
      from_idx ∈ lookupSet (ManyToMany.from_forward m).backward to_idx := by
  rw [from_forward_backward_mem]
  exact Iff.rfl

/-- C5: `OneToMany::new` fails exactly when some `many` record carries a
foreign identifier with no match; the reported error carries the identifier of
the first such record in iteration order and the relation name; and on success
every `many` record is linked to exactly one owner in `many_to_one`. -/
theorem C5_new_identifier_not_found (gi : String → Option Idx)
    (many : List (Idx × String)) (rel : String) :
    ((∃ e, OneToMany.new gi many rel = .error e) ↔ ∃ p ∈ many, gi p.2 = none) ∧
    (∀ e, OneToMany.new gi many rel = .error e →
      ∃ p, many.find? (fun q => (gi q.2).isNone) = some p ∧
        e = .IdentifierNotFound p.2 rel) ∧
    (∀ r, OneToMany.new gi many rel = .ok r →
      ∀ p ∈ many, ∃ t, r.many_to_one.lookup p.1 = some t) := by
  refine ⟨⟨?_, ?_⟩, ?_, ?_⟩
  · rintro ⟨e, he⟩
    by_contra hnone
    push_neg at hnone
    have hall : ∀ p ∈ many, (gi p.2).isSome := by
      intro p hp
      cases hgp : gi p.2 with
      | none => exact absurd hgp (hnone p hp)
      | some v => rfl
    rw [OneToMany.new, newAux_ok_intro gi rel many ∅ ∅ hall] at he
    exact Except.noConfusion he
  · rintro ⟨p, hp, hnone⟩
    cases hres : OneToMany.new gi many rel with
    | error e => exact ⟨e, rfl⟩
    | ok r =>
      obtain ⟨hall, -⟩ := newAux_ok_elim gi rel many ∅ ∅ r hres
      have hsome := hall p hp
      rw [hnone] at hsome
      exact absurd hsome (by simp)
  · intro e he
    exact newAux_error_first gi rel many ∅ ∅ e he
  · intro r hr p hp
    obtain ⟨hall, hfold⟩ := newAux_ok_elim gi rel many ∅ ∅ r hr
    rw [hfold]
    have hmem : p.1 ∈ (resolveList gi many).map Prod.fst := by
      rw [resolveList_map_fst]
      exact List.mem_map.mpr ⟨p, hp, rfl⟩
    have hsome := foldl_rawStep_m2o_mem (resolveList gi many)
      { one_to_many := ∅, many_to_one := ∅ } p.1 hmem
    cases hcase : ((resolveList gi many).foldl rawStep
        { one_to_many := ∅, many_to_one := ∅ }).many_to_one.lookup p.1 with
    | none => rw [hcase] at hsome; exact absurd hsome (by simp)
    | some t => exact ⟨t, rfl⟩

/-- C5 witness: the theorem applied to a failing construction (unresolvable
identifier, first failing record reported) and to a succeeding one (the single
record is linked). -/
theorem C5_new_identifier_not_found_witness :
    (∃ p, [((5 : Idx), "x")].find?
        (fun q => ((fun _ => (none : Option Idx)) q.2).isNone) = some p ∧
      Error.IdentifierNotFound "x" "wit" = .IdentifierNotFound p.2 "wit") ∧
    (∃ t, (rawStep OneToMany.default (5, 0)).many_to_one.lookup 5 = some t) :=
  ⟨(C5_new_identifier_not_found (fun _ => none) [(5, "x")] "wit").2.1
      (.IdentifierNotFound "x" "wit") rfl,
    (C5_new_identifier_not_found (fun _ => some 0) [(5, "x")] "wit").2.2
      (rawStep OneToMany.default (5, 0)) rfl (5, "x") (by simp)⟩

/-- C6: joining two relations on a common sink (forward of the first
distributing over unions and vanishing outside its source set, backward of the
second distributing over unions, as both crate impls do) and looking forward
equals looking forward through the first and then backward through the
second. -/
theorem C6_sink_forward_composes (r1 r2 : RelationOps)
    (h1 : FwdUnion r1) (h1s : FwdSupported r1) (h2 : BwdUnion r2) (S : IdxSet) :
    (ManyToMany.from_relations_sink r1 r2).get_corresponding_forward S =
      r2.get_corresponding_backward (r1.get_corresponding_forward S) :=
  sink_fwd_eq r1 r2 h1 h1s h2 S

/-- C6 witness: the theorem applied to two concrete `OneToMany` relations
sharing their target type. -/
theorem C6_sink_forward_composes_witness :
    (ManyToMany.from_relations_sink
        ((OneToMany.default.add_link 0 3).add_link 0 4).toRelation
        (OneToMany.default.add_link 9 3).toRelation).get_corresponding_forward {0} =
      ((OneToMany.default.add_link 9 3).toRelation).get_corresponding_backward
        ((((OneToMany.default.add_link 0 3).add_link 0 4).toRelation).get_corresponding_forward
          {0}) :=
  C6_sink_forward_composes _ _ (fwdUnion_oneToMany _) (fwdSupported_oneToMany _)
    (bwdUnion_oneToMany _) {0}

/-- C7: the forward lookup (of both relation kinds, which share
`get_corresponding`) is exactly the union of the stored buckets of the input
indices, and the backward lookup of `OneToMany` is exactly the collected single
owners; an input index absent from the underlying map contributes nothing and
raises no error, and an input set disjoint from the keys yields `∅`. -/
theorem C7_lookup_union_semantics (m : IdxMap IdxSet) (o : OneToMany)
    (S : IdxSet) (i : Idx) :
    get_corresponding m S = S.biUnion (fun j => lookupSet m j) ∧
    o.get_corresponding_backward S =
      S.biUnion (fun u => (o.many_to_one.lookup u).toFinset) ∧
    (m.lookup i = none → get_corresponding m S = get_corresponding m (S.erase i)) ∧
    ((∀ j ∈ S, j ∉ m.keys) → get_corresponding m S = ∅) ∧
    ((∀ u ∈ S, u ∉ o.many_to_one.keys) → o.get_corresponding_backward S = ∅) := by
  refine ⟨get_corresponding_eq_biUnion m S, oneToMany_backward_eq_biUnion o S, ?_, ?_, ?_⟩
  · intro hnone
    rw [get_corresponding_eq_biUnion, get_corresponding_eq_biUnion]
    ext a
    simp only [Finset.mem_biUnion, Finset.mem_erase]
    constructor
    · rintro ⟨j, hj, ha⟩
      refine ⟨j, ⟨?_, hj⟩, ha⟩
      rintro rfl
      rw [lookupSet, hnone, Option.getD_none] at ha
      exact absurd ha (Finset.not_mem_empty a)
    · rintro ⟨j, ⟨-, hj⟩, ha⟩
      exact ⟨j, hj, ha⟩
  · intro hdisj
    rw [get_corresponding_eq_biUnion]
    ext a
    simp only [Finset.mem_biUnion, Finset.not_mem_empty, iff_false, not_exists]
    intro j hj
    exact hdisj j hj.1 (mem_lookupSet_mem_keys hj.2)
  · intro hdisj
    rw [oneToMany_backward_eq_biUnion]
    ext a
    simp only [Finset.mem_biUnion, Finset.not_mem_empty, iff_false, not_exists]
    intro u hu
    obtain ⟨hu1, ha⟩ := hu
    rw [Option.mem_toFinset, Option.mem_def] at ha
    exact hdisj u hu1 (Finmap.mem_keys.mpr (Finmap.mem_iff.mpr ⟨a, ha⟩))

/-- C7 witness: the theorem applied to a concrete map and relation, with an
input set disjoint from their keys. -/
theorem C7_lookup_union_semantics_witness :
    get_corresponding ((∅ : IdxMap IdxSet).insert 1 {4}) {2, 3} =
      Finset.biUnion {2, 3} (fun j => lookupSet ((∅ : IdxMap IdxSet).insert 1 {4}) j) ∧
    (OneToMany.default.add_link 0 1).get_corresponding_backward {2, 3} =
      Finset.biUnion {2, 3}
        (fun u => ((OneToMany.default.add_link 0 1).many_to_one.lookup u).toFinset) ∧
    get_corresponding ((∅ : IdxMap IdxSet).insert 1 {4}) {2, 3} =
      get_corresponding ((∅ : IdxMap IdxSet).insert 1 {4}) (({2, 3} : IdxSet).erase 2) ∧
    get_corresponding ((∅ : IdxMap IdxSet).insert 1 {4}) {2, 3} = ∅ ∧
    (OneToMany.default.add_link 0 1).get_corresponding_backward {2, 3} = ∅ := by
  obtain ⟨h1, h2, h3, h4, h5⟩ :=
    C7_lookup_union_semantics ((∅ : IdxMap IdxSet).insert 1 {4})
      (OneToMany.default.add_link 0 1) {2, 3} 2
  exact ⟨h1, h2, h3 rfl, h4 (by decide), h5 (by decide)⟩

/-- C8: a successful `OneToMany::new` (distinct `many` indices, as
`CollectionWithId` iteration guarantees) equals the replay that starts from
`default` and calls `add_link one_idx many_idx` per record in iteration order,
and at each step of that replay the index being linked is absent from
`many_to_one`, so the remove-existing-relation branch of `add_link` is never
taken. -/
theorem C8_new_is_replay_of_add_link (gi : String → Option Idx)
    (many : List (Idx × String)) (rel : String) (r : OneToMany)
    (hnd : (many.map Prod.fst).Nodup)
    (h : OneToMany.new gi many rel = .ok r) :
    r = replayNew (resolveList gi many) ∧
    (∀ l1 p l2, many = l1 ++ p :: l2 →
      (replayNew (resolveList gi l1)).many_to_one.lookup p.1 = none) := by
  obtain ⟨hall, hr⟩ := newAux_ok_elim gi rel many ∅ ∅ r h
  constructor
  · have e0 : replayNew (resolveList gi many) =
        (resolveList gi many).foldl rawStep OneToMany.default := by
      rw [replayNew, ← foldl_rawStep_eq_addLink]
      · rw [resolveList_map_fst]
        exact hnd
      · intro i _
        exact Finmap.lookup_empty i
    rw [hr, e0]
    rfl
  · intro l1 p l2 heq
    subst heq
    rw [List.map_append, List.map_cons, List.nodup_append] at hnd
    have hp1 : p.1 ∉ l1.map Prod.fst :=
      fun hmem => (hnd.2.2 hmem) (List.mem_cons_self _ _)
    have e1 : replayNew (resolveList gi l1) =
        (resolveList gi l1).foldl rawStep OneToMany.default := by
      rw [replayNew, ← foldl_rawStep_eq_addLink]
      · rw [resolveList_map_fst]
        exact hnd.1
      · intro i _
        exact Finmap.lookup_empty i
    rw [e1, foldl_rawStep_m2o_not_mem _ _ _ (by rw [resolveList_map_fst]; exact hp1)]
    exact Finmap.lookup_empty _

/-- C8 witness: the theorem applied to a one-record construction; the replay
equals the result and the single index is fresh when it is linked. -/
theorem C8_new_is_replay_of_add_link_witness :
    rawStep OneToMany.default (5, 0) = replayNew (resolveList (fun _ => some 0) [(5, "x")]) ∧
    (replayNew (resolveList (fun _ => some 0) [])).many_to_one.lookup 5 = none :=
  ⟨(C8_new_is_replay_of_add_link (fun _ => some 0) [(5, "x")] "wit"
      (rawStep OneToMany.default (5, 0)) (by simp) rfl).1,
    (C8_new_is_replay_of_add_link (fun _ => some 0) [(5, "x")] "wit"
      (rawStep OneToMany.default (5, 0)) (by simp) rfl).2 [] (5, "x") [] rfl⟩

/-- C9: `get_from` is exactly the key set of `one_to_many`; after re-linking the
last target away from a source, the source's bucket is empty but the key
remains, so the source still appears in `get_from` while its forward lookup is
empty. -/
theorem C9_get_from_is_keys_with_stale_sources :
    (∀ o : OneToMany, o.get_from = o.one_to_many.keys) ∧
    0 ∈ ((OneToMany.default.add_link 0 5).add_link 1 5).get_from ∧
    lookupSet ((OneToMany.default.add_link 0 5).add_link 1 5).one_to_many 0 = ∅ ∧
    ((OneToMany.default.add_link 0 5).add_link 1 5).get_corresponding_forward {0} = ∅ :=
  ⟨fun _ => rfl, by decide, by decide, by decide⟩

/-- C10: `add_link` is idempotent: a second identical call leaves the state of
the first, and on a consistent state that already links `to_` to `from_` the
call changes nothing. -/
theorem C10_add_link_idempotent (o : OneToMany) (from_ to_ : Idx) :
    (o.add_link from_ to_).add_link from_ to_ = o.add_link from_ to_ ∧
    (Consistent o → o.many_to_one.lookup to_ = some from_ →
      o.add_link from_ to_ = o) := by
  constructor
  · apply add_link_eq_self
    · rw [add_link_lookup_m2o, if_pos rfl]
    · rw [add_link_bucket, if_pos rfl]
      exact Finset.mem_insert_self _ _
  · intro hc hlk
    exact add_link_eq_self hlk (hc.1 to_ from_ hlk)

/-- C10 witness: the theorem applied to concrete states; the second part is
discharged on a consistent state that already holds the link. -/
theorem C10_add_link_idempotent_witness :
    (OneToMany.default.add_link 0 1).add_link 0 1 = OneToMany.default.add_link 0 1 ∧
    (OneToMany.default.add_link 2 3).add_link 2 3 = OneToMany.default.add_link 2 3 :=
  ⟨(C10_add_link_idempotent OneToMany.default 0 1).1,
    (C10_add_link_idempotent (OneToMany.default.add_link 2 3) 2 3).2
      (consistent_add_link OneToMany.default consistent_default 2 3) rfl⟩
